import Mathlib

/-!
Shallow embedding of the `halo2wrong` integer module (`src/integer/src/lib.rs`):
the limb/integer data model, overflow-bound bookkeeping and the auxiliary-value
construction `make_aux`.

Modelling conventions:
* `big_uint` is embedded as `ℕ`.
* Native-field elements are embedded as their canonical representatives in `ℕ`
  (the native modulus is carried in the `Rns` record); `big_to_fe` reduces mod it.
* Rust's fixed-size arrays `[T; NUMBER_OF_LIMBS]` are embedded as lists together
  with explicit well-formedness predicates fixing their length, so that the
  source's `try_into().unwrap()` conversions can be stated and analysed.
* A `panic!`-style failure (Rust `unwrap` on `None`, out-of-bounds index) is
  embedded as `Except.error ()`; divergence of a loop is embedded as `none`.
-/

namespace IntegerLib

/-- Location token identifying where a value is committed in the constraint
system (`halo2::circuit::Cell`); used opaquely, modelled as a tagged index. -/
structure Cell where
  idx : ℕ
deriving DecidableEq

/-- Modelled from the spec: `Limb` (from the out-of-src `rns` module) wraps a
single residue digit's native-field representation (its big-integer form is the
canonical representative, derived lazily). `Limb::new(value)` stores the field
element; we keep that field element as `fe`. -/
structure Limb where
  fe : ℕ
deriving DecidableEq

/-- Modelled from the spec: the plain committed-value type `AssignedValue`
(from the out-of-src `maingate` crate): a location token plus an optional
witness value, carrying no max-value bound. -/
structure AssignedValue where
  cell : Cell
  value : Option ℕ
deriving DecidableEq

/-- Modelled from the spec: constructor `AssignedValue::new(cell, value)`. -/
def AssignedValue.new (cell : Cell) (value : Option ℕ) : AssignedValue :=
  ⟨cell, value⟩

/-- Modelled from the spec: shared RNS parameter object (out-of-src `rns`
module): fixed limb count and bit-width, native modulus, and the base auxiliary
constant per limb position used by `make_aux`. -/
structure Rns where
  n : ℕ
  bitLen : ℕ
  nativeMod : ℕ
  base_aux : List ℕ
deriving DecidableEq

/-- Well-formedness of an `Rns`: the base auxiliary tuple has exactly
`NUMBER_OF_LIMBS` entries (it is a fixed-size array in the source), and each
base auxiliary constant is positive (the constants are shifted multiples of the
wrong-modulus limbs, on the order of `2^67` in the spec's scenarios; a zero
constant would make the source's shift loop diverge). -/
def Rns.wf (r : Rns) : Prop :=
  r.base_aux.length = r.n ∧ ∀ x ∈ r.base_aux, 0 < x

instance (r : Rns) : Decidable r.wf := by
  unfold Rns.wf; infer_instance

/-- Modelled from the spec: `big_to_fe` (out-of-src `maingate`) maps a big
integer into the native field, i.e. reduces it modulo the native modulus. -/
def bigToFe (p x : ℕ) : ℕ := x % p

/-- Modelled from the spec: witness-level `Integer` (out-of-src `rns` module):
a fixed-size ordered sequence of `Limb`s plus the shared `Rns` handle. -/
structure Integer where
  limbs : List Limb
  rns : Rns
deriving DecidableEq

/-- Modelled from the spec: `Integer::new(limbs, rns)`. -/
def Integer.new (limbs : List Limb) (rns : Rns) : Integer :=
  ⟨limbs, rns⟩

/-- Modelled from the spec: `Integer::from_limbs(&[N; n], rns)` builds an
`Integer` directly from native-field elements. -/
def Integer.from_limbs (fes : List ℕ) (rns : Rns) : Integer :=
  ⟨fes.map Limb.mk, rns⟩

/-- `AssignedLimb` (src/integer/src/lib.rs:34-41): a committed limb: optional
witness value, the cell that accommodates it, and the tracked maximum value. -/
structure AssignedLimb where
  value : Option Limb
  cell : Cell
  max_val : ℕ
deriving DecidableEq

namespace AssignedLimb

/-- Constructor `AssignedLimb::new(cell, value, max_val)`
(src/integer/src/lib.rs:77-84). -/
def new (cell : Cell) (value : Option ℕ) (max_val : ℕ) : AssignedLimb :=
  ⟨value.map Limb.mk, cell, max_val⟩

/-- `AssignedLimb::from(assigned, max_val)` (src/integer/src/lib.rs:88-96):
build from an already-committed `AssignedValue` plus an asserted bound. -/
def from_assigned (assigned : AssignedValue) (max_val : ℕ) : AssignedLimb :=
  ⟨assigned.value.map Limb.mk, assigned.cell, max_val⟩

/-- `AssignedLimb::limb` (src/integer/src/lib.rs:100-102). -/
def limb (a : AssignedLimb) : Option Limb := a.value

/-- The `Assigned` trait's `value()` for `AssignedLimb`
(src/integer/src/lib.rs:57-64): the witness value as a field element. -/
def valueFe (a : AssignedLimb) : Option ℕ := a.value.map Limb.fe

/-- `From<AssignedLimb<F>> for AssignedValue<F>` (src/integer/src/lib.rs:44-48):
`AssignedValue::new(limb.cell(), limb.value())`. -/
def toAssignedValue (a : AssignedLimb) : AssignedValue :=
  AssignedValue.new a.cell a.valueFe

/-- `AssignedLimb::add` (src/integer/src/lib.rs:108-110). -/
def add (a other : AssignedLimb) : ℕ := a.max_val + other.max_val

/-- `AssignedLimb::mul2` (src/integer/src/lib.rs:112-114). -/
def mul2 (a : AssignedLimb) : ℕ := a.max_val + a.max_val

/-- `AssignedLimb::mul3` (src/integer/src/lib.rs:116-118). -/
def mul3 (a : AssignedLimb) : ℕ := a.max_val + a.max_val + a.max_val

/-- `AssignedLimb::add_big` (src/integer/src/lib.rs:120-122). -/
def add_big (a : AssignedLimb) (other : ℕ) : ℕ := a.max_val + other

end AssignedLimb

/-- Modelled from the spec: maingate's `compose` performs the positional
base-`2^bitLen` composition of a list of big integers (limb 0 is the least
significant position). -/
def compose (input : List ℕ) (bitLen : ℕ) : ℕ :=
  match input with
  | [] => 0
  | x :: xs => x + 2 ^ bitLen * compose xs bitLen

/-- `AssignedInteger` (src/integer/src/lib.rs:176-188): limbs of the emulated
integer, the redundant native-field projection, and the shared `Rns` handle. -/
structure AssignedInteger where
  limbs : List AssignedLimb
  native_value : AssignedValue
  rns : Rns
deriving DecidableEq

namespace AssignedInteger

/-- `AssignedInteger::new` (src/integer/src/lib.rs:193-203). -/
def new (rns : Rns) (limbs : List AssignedLimb) (native_value : AssignedValue) :
    AssignedInteger :=
  ⟨limbs, native_value, rns⟩

/-- Well-formedness: the limb sequence has exactly `NUMBER_OF_LIMBS` entries
(it is a fixed-size array in the source). -/
def wf (a : AssignedInteger) : Prop := a.limbs.length = a.rns.n

instance (a : AssignedInteger) : Decidable a.wf := by
  unfold wf; infer_instance

/-- `AssignedInteger::max_vals` (src/integer/src/lib.rs:209-216), before the
`try_into().unwrap()` re-packing into a fixed-size array: collect each limb's
tracked bound. -/
def max_vals (a : AssignedInteger) : List ℕ :=
  a.limbs.map AssignedLimb.max_val

/-- `AssignedInteger::max_val` (src/integer/src/lib.rs:205-207): positional
composition of the per-limb bounds. -/
def max_val (a : AssignedInteger) : ℕ :=
  compose a.max_vals a.rns.bitLen

/-- `AssignedInteger::native` (src/integer/src/lib.rs:226-228). -/
def native (a : AssignedInteger) : AssignedValue := a.native_value

end AssignedInteger

/-- The Rust conversion `Vec<T> -> [T; n]` via `try_into`: succeeds exactly when
the vector's length is `n`. -/
def tryIntoArray (n : ℕ) (l : List α) : Option (List α) :=
  if l.length = n then some l else none

/-- Rust `Option::unwrap` in a context where a `None` is a panic: the panic is
embedded as `Except.error ()`. -/
def optionUnwrap : Option α → Except Unit α
  | some a => Except.ok a
  | none => Except.error ()

/-- The iteration `self.limbs.iter().map(|limb| limb.limb().unwrap()).collect()`
inside `AssignedInteger::integer` (src/integer/src/lib.rs:233): unwrap each
limb's witness in order; the first absent witness panics. -/
def unwrapAll : List AssignedLimb → Except Unit (List Limb)
  | [] => Except.ok []
  | l :: ls =>
    match l.value with
    | none => Except.error ()
    | some v =>
      match unwrapAll ls with
      | Except.error e => Except.error e
      | Except.ok vs => Except.ok (v :: vs)

/-- `AssignedInteger::integer` (src/integer/src/lib.rs:230-237): presence is
probed on `self.limbs[0]` only; when limb 0 is present every limb is unwrapped.
Indexing an empty limb array, or unwrapping an absent limb, is a panic. -/
def AssignedInteger.integer (a : AssignedInteger) :
    Except Unit (Option Integer) :=
  match a.limbs with
  | [] => Except.error ()
  | l0 :: _ =>
    match l0.value with
    | none => Except.ok none
    | some _ =>
      match unwrapAll a.limbs with
      | Except.error e => Except.error e
      | Except.ok vs => Except.ok (some (Integer.new vs a.rns))

/-- The inner `while *max_val > aux` loop of `AssignedInteger::make_aux`
(src/integer/src/lib.rs:243-249) for one limb position: starting from the
position's base auxiliary constant `aux` and the running counters
(`shift`, initially 1, and the accumulated `max_shift`), shift `aux` left one
bit at a time while the limb's bound still strictly exceeds it, folding the
current `shift` into `max_shift` before incrementing. When `aux = 0` and the
bound is positive the Rust loop never terminates; that divergence is embedded
as `none`. -/
def makeAuxLoop (maxVal aux shift maxShift : ℕ) : Option ℕ :=
  if maxVal > aux then
    if aux = 0 then none
    else makeAuxLoop maxVal (aux <<< 1) (shift + 1) (max shift maxShift)
  else some maxShift
termination_by maxVal - aux
decreasing_by
  simp only [Nat.shiftLeft_eq]
  omega

/-- The scan over all limb positions in `AssignedInteger::make_aux`
(src/integer/src/lib.rs:240-250): fold the per-position shift loop over the
zipped (bound, base auxiliary constant) pairs, accumulating `max_shift`
(initially 0); each position's loop restarts `shift` at 1. -/
def makeAuxShift (pairs : List (ℕ × ℕ)) : Option ℕ :=
  List.foldlM (fun m pr => makeAuxLoop pr.1 pr.2 1 m) 0 pairs

/-- `AssignedInteger::make_aux` (src/integer/src/lib.rs:239-263): compute the
single uniform shift from the scan, then build a fresh `Integer` whose limbs
are the base auxiliary constants all shifted left by that amount and reduced
into the native field. -/
def AssignedInteger.make_aux (a : AssignedInteger) : Option Integer :=
  (makeAuxShift (a.max_vals.zip a.rns.base_aux)).map fun maxShift =>
    Integer.from_limbs
      (a.rns.base_aux.map fun auxLimb =>
        bigToFe a.rns.nativeMod (auxLimb <<< maxShift))
      a.rns

/-- Spec-side definition (for comparison with the source computation): the
number of one-bit left shifts a base auxiliary constant needs until it is no
longer strictly exceeded by the limb's max bound. Returns 0 in the degenerate
`aux = 0` case in which the source loop would diverge. -/
def leastShiftSpec (maxVal aux : ℕ) : ℕ :=
  if maxVal ≤ aux ∨ aux = 0 then 0
  else leastShiftSpec maxVal (aux * 2) + 1
termination_by maxVal - aux
decreasing_by omega

/-- Spec-side definition: the single largest per-position required shift across
all limb positions (zero when no position requires a shift). -/
def maxShiftSpec (pairs : List (ℕ × ℕ)) : ℕ :=
  List.foldl (fun m pr => max m (leastShiftSpec pr.1 pr.2)) 0 pairs

/-- Concrete `Rns` instance used by the witnesses: 2 limbs, 3-bit limbs,
native modulus 97, base auxiliary tuple `[4, 4]`. -/
def exRns : Rns := ⟨2, 3, 97, [4, 4]⟩

/-- Concrete fully-assigned `AssignedInteger` over `exRns` with bounds 5, 7. -/
def exInt : AssignedInteger :=
  ⟨[⟨some ⟨1⟩, ⟨0⟩, 5⟩, ⟨some ⟨2⟩, ⟨1⟩, 7⟩], ⟨⟨2⟩, none⟩, exRns⟩

/-- Concrete all-absent `AssignedInteger` over `exRns` with the same bounds as
`exInt` but different cells and no witness values. -/
def exIntAbsent : AssignedInteger :=
  ⟨[⟨none, ⟨5⟩, 5⟩, ⟨none, ⟨6⟩, 7⟩], ⟨⟨7⟩, none⟩, exRns⟩

/-- Concrete `AssignedInteger` over `exRns` whose first limb is assigned but
whose second limb is not. -/
def exIntMixed : AssignedInteger :=
  ⟨[⟨some ⟨1⟩, ⟨0⟩, 5⟩, ⟨none, ⟨1⟩, 7⟩], ⟨⟨2⟩, none⟩, exRns⟩

/-- The BN254 scalar field modulus, a representative native modulus for the
4-limb 68-bit instantiation. -/
def nativeMod254 : ℕ :=
  21888242871839275222246405745257275088548364400416034343698204186575808495617

/-- Concrete `Rns` for the spec's scenario: 4 limbs of bit-width 68, base
auxiliary tuple `[2^67, 2^67, 2^67, 2^67]`. -/
def rns4 : Rns := ⟨4, 68, nativeMod254, [2 ^ 67, 2 ^ 67, 2 ^ 67, 2 ^ 67]⟩

/-- Concrete `AssignedInteger` over `rns4` whose limb max bounds are
`[2^67, 2^69, 2^67, 2^67]`. -/
def int4 : AssignedInteger :=
  ⟨[⟨none, ⟨0⟩, 2 ^ 67⟩, ⟨none, ⟨1⟩, 2 ^ 69⟩, ⟨none, ⟨2⟩, 2 ^ 67⟩,
    ⟨none, ⟨3⟩, 2 ^ 67⟩], ⟨⟨4⟩, none⟩, rns4⟩

/-! Helper lemmas. -/

theorem shiftLeft_one (aux : ℕ) : aux <<< 1 = aux * 2 := by
  simp [Nat.shiftLeft_eq]

/-- The inner shift loop, started at `shift = s + 1`, terminates whenever the
base constant is positive (or already dominates the bound), and returns the
accumulated maximum folded with `s +` the required shift count of this
position, except that a position needing no shift contributes nothing. -/
theorem makeAuxLoop_eq (maxVal : ℕ) :
    ∀ d aux s m, maxVal - aux ≤ d → (0 < aux ∨ maxVal ≤ aux) →
      makeAuxLoop maxVal aux (s + 1) m
        = some (if maxVal ≤ aux then m
                else max m (s + leastShiftSpec maxVal aux)) := by
  intro d
  induction d with
  | zero =>
    intro aux s m hd h
    have hle : maxVal ≤ aux := by omega
    rw [makeAuxLoop.eq_def]
    simp [Nat.not_lt.mpr hle, hle]
  | succ d ih =>
    intro aux s m hd h
    by_cases hle : maxVal ≤ aux
    · rw [makeAuxLoop.eq_def]
      simp [Nat.not_lt.mpr hle, hle]
    · have hpos : 0 < aux := h.resolve_right hle
      have hlt : aux < maxVal := Nat.lt_of_not_le hle
      have hsl : aux <<< 1 = aux * 2 := shiftLeft_one aux
      have hd2 : maxVal - aux * 2 ≤ d := by omega
      have hL : leastShiftSpec maxVal aux
          = leastShiftSpec maxVal (aux * 2) + 1 := by
        rw [leastShiftSpec.eq_def]
        have : ¬ (maxVal ≤ aux ∨ aux = 0) := by omega
        simp [this]
      rw [makeAuxLoop.eq_def]
      simp only [if_pos (show maxVal > aux from hlt),
        if_neg (Nat.pos_iff_ne_zero.mp hpos)]
      rw [hsl]
      have := ih (aux * 2) (s + 1) (max (s + 1) m) hd2 (Or.inl (by omega))
      rw [this]
      by_cases h2 : maxVal ≤ aux * 2
      · have hL0 : leastShiftSpec maxVal (aux * 2) = 0 := by
          rw [leastShiftSpec.eq_def]
          simp [h2]
        rw [hL, hL0]
        simp only [if_pos h2, if_neg hle]
        congr 1
        omega
      · rw [hL]
        simp only [if_neg h2, if_neg hle]
        congr 1
        omega

/-- The inner shift loop started as in the source (`shift = 1`): for a position
with positive base constant it returns the running maximum folded with this
position's required shift count. -/
theorem makeAuxLoop_one (maxVal aux m : ℕ) (h : 0 < aux) :
    makeAuxLoop maxVal aux 1 m = some (max m (leastShiftSpec maxVal aux)) := by
  have := makeAuxLoop_eq maxVal (maxVal - aux) aux 0 m le_rfl (Or.inl h)
  rw [this]
  by_cases hle : maxVal ≤ aux
  · have hL0 : leastShiftSpec maxVal aux = 0 := by
      rw [leastShiftSpec.eq_def]
      simp [hle]
    simp [hle, hL0]
  · simp [hle]

/-- The scan over the zipped (bound, base aux) pairs succeeds whenever every
base auxiliary constant is positive, and computes the fold of the per-position
required shifts under `max`, from any initial accumulator. -/
theorem makeAuxShift_fold (pairs : List (ℕ × ℕ))
    (h : ∀ pr ∈ pairs, 0 < pr.2) :
    ∀ m, List.foldlM (fun m pr => makeAuxLoop pr.1 pr.2 1 m) m pairs
      = some (List.foldl (fun m pr => max m (leastShiftSpec pr.1 pr.2)) m
          pairs) := by
  induction pairs with
  | nil => intro m; rfl
  | cons pr rest ih =>
    intro m
    have hpr : 0 < pr.2 := h pr (List.mem_cons_self pr rest)
    have hrest : ∀ q ∈ rest, 0 < q.2 := fun q hq => h q (List.mem_cons_of_mem pr hq)
    simp only [List.foldlM, List.foldl]
    rw [makeAuxLoop_one pr.1 pr.2 m hpr]
    simpa using ih hrest (max m (leastShiftSpec pr.1 pr.2))

/-- The shift computed by the source scan equals the spec-side maximum of the
per-position required shifts. -/
theorem makeAuxShift_eq (pairs : List (ℕ × ℕ))
    (h : ∀ pr ∈ pairs, 0 < pr.2) :
    makeAuxShift pairs = some (maxShiftSpec pairs) :=
  makeAuxShift_fold pairs h 0

/-- The required shift indeed suffices: after `leastShiftSpec` doublings the
base constant is no longer strictly exceeded by the bound. -/
theorem leastShiftSpec_le :
    ∀ d maxVal aux, maxVal - aux ≤ d → 0 < aux →
      maxVal ≤ aux * 2 ^ leastShiftSpec maxVal aux := by
  intro d
  induction d with
  | zero =>
    intro maxVal aux hd hpos
    have hle : maxVal ≤ aux := by omega
    have hL0 : leastShiftSpec maxVal aux = 0 := by
      rw [leastShiftSpec.eq_def]
      simp [hle]
    rw [hL0]
    simpa using hle
  | succ d ih =>
    intro maxVal aux hd hpos
    by_cases hle : maxVal ≤ aux
    · have hL0 : leastShiftSpec maxVal aux = 0 := by
        rw [leastShiftSpec.eq_def]
        simp [hle]
      rw [hL0]
      simpa using hle
    · have hL : leastShiftSpec maxVal aux
          = leastShiftSpec maxVal (aux * 2) + 1 := by
        rw [leastShiftSpec.eq_def]
        have : ¬ (maxVal ≤ aux ∨ aux = 0) := by omega
        simp [this]
      have hd2 : maxVal - aux * 2 ≤ d := by omega
      have := ih maxVal (aux * 2) hd2 (by omega)
      rw [hL, pow_succ]
      calc maxVal ≤ aux * 2 * 2 ^ leastShiftSpec maxVal (aux * 2) := this
        _ = aux * (2 ^ leastShiftSpec maxVal (aux * 2) * 2) := by ring

/-- The required shift is minimal: no smaller number of doublings already
dominates the bound. -/
theorem leastShiftSpec_min :
    ∀ d maxVal aux, maxVal - aux ≤ d →
      ∀ k, maxVal ≤ aux * 2 ^ k → leastShiftSpec maxVal aux ≤ k := by
  intro d
  induction d with
  | zero =>
    intro maxVal aux hd k hk
    have hle : maxVal ≤ aux := by omega
    have hL0 : leastShiftSpec maxVal aux = 0 := by
      rw [leastShiftSpec.eq_def]
      simp [hle]
    omega
  | succ d ih =>
    intro maxVal aux hd k hk
    by_cases hle : maxVal ≤ aux
    · have hL0 : leastShiftSpec maxVal aux = 0 := by
        rw [leastShiftSpec.eq_def]
        simp [hle]
      omega
    · have hlt : aux < maxVal := Nat.lt_of_not_le hle
      have hpos : 0 < aux := by
        rcases Nat.eq_zero_or_pos aux with h0 | h0
        · subst h0
          simp at hk
          omega
        · exact h0
      have hL : leastShiftSpec maxVal aux
          = leastShiftSpec maxVal (aux * 2) + 1 := by
        rw [leastShiftSpec.eq_def]
        have : ¬ (maxVal ≤ aux ∨ aux = 0) := by omega
        simp [this]
      cases k with
      | zero =>
        simp at hk
        omega
      | succ k =>
        have hd2 : maxVal - aux * 2 ≤ d := by omega
        have hk2 : maxVal ≤ aux * 2 * 2 ^ k := by
          calc maxVal ≤ aux * 2 ^ (k + 1) := hk
            _ = aux * 2 * 2 ^ k := by ring
        have := ih maxVal (aux * 2) hd2 k hk2
        omega

/-- The initial accumulator is a lower bound of a `foldl max`. -/
theorem foldl_max_init (g : α → ℕ) :
    ∀ (l : List α) (m : ℕ), m ≤ List.foldl (fun a x => max a (g x)) m l := by
  intro l
  induction l with
  | nil => intro m; simp
  | cons x xs ih =>
    intro m
    calc m ≤ max m (g x) := Nat.le_max_left _ _
      _ ≤ List.foldl (fun a y => max a (g y)) (max m (g x)) xs := ih _

/-- Every member's value is a lower bound of a `foldl max`. -/
theorem foldl_max_mem (g : α → ℕ) :
    ∀ (l : List α) (m : ℕ) (x : α), x ∈ l →
      g x ≤ List.foldl (fun a y => max a (g y)) m l := by
  intro l
  induction l with
  | nil => intro m x hx; simp at hx
  | cons y ys ih =>
    intro m x hx
    rcases List.mem_cons.mp hx with h | h
    · subst h
      calc g x ≤ max m (g x) := Nat.le_max_right _ _
        _ ≤ List.foldl (fun a z => max a (g z)) (max m (g x)) ys :=
          foldl_max_init g ys _
    · exact ih (max m (g y)) x h

/-- A common upper bound of the accumulator and of all members bounds the
`foldl max`. -/
theorem foldl_max_le (g : α → ℕ) :
    ∀ (l : List α) (m c : ℕ), m ≤ c → (∀ x ∈ l, g x ≤ c) →
      List.foldl (fun a x => max a (g x)) m l ≤ c := by
  intro l
  induction l with
  | nil => intro m c hm _; simpa using hm
  | cons y ys ih =>
    intro m c hm hl
    have hy : g y ≤ c := hl y (List.mem_cons_self y ys)
    exact ih (max m (g y)) c (by omega)
      (fun x hx => hl x (List.mem_cons_of_mem y hx))

/-- Positional composition as an indexed sum. -/
theorem compose_eq_sum :
    ∀ (l : List ℕ) (b : ℕ),
      compose l b = ∑ i in Finset.range l.length, l.getD i 0 * 2 ^ (i * b) := by
  intro l
  induction l with
  | nil => intro b; simp [compose]
  | cons x xs ih =>
    intro b
    rw [compose, ih b, List.length_cons, Finset.sum_range_succ']
    simp only [List.getD_cons_succ, List.getD_cons_zero, zero_mul, pow_zero,
      mul_one]
    rw [Finset.mul_sum, Nat.add_comm]
    congr 1
    refine Finset.sum_congr rfl fun i _ => ?_
    ring

/-- Unwrapping a fully-assigned limb list succeeds and returns exactly the
witnesses. -/
theorem unwrapAll_ok :
    ∀ (xs : List AssignedLimb), (∀ l ∈ xs, l.value ≠ none) →
      ∃ vs, unwrapAll xs = Except.ok vs
        ∧ xs.map AssignedLimb.value = vs.map some := by
  intro xs
  induction xs with
  | nil => intro _; exact ⟨[], rfl, rfl⟩
  | cons l ls ih =>
    intro h
    have hl : l.value ≠ none := h l (List.mem_cons_self l ls)
    obtain ⟨v, hv⟩ := Option.ne_none_iff_exists'.mp hl
    obtain ⟨vs, hvs, hmap⟩ := ih fun x hx => h x (List.mem_cons_of_mem l hx)
    refine ⟨v :: vs, ?_, ?_⟩
    · rw [unwrapAll, hv, hvs]
    · simp [hv, hmap]

/-- Unwrapping a limb list with at least one absent witness panics. -/
theorem unwrapAll_error :
    ∀ (xs : List AssignedLimb), (∃ l ∈ xs, l.value = none) →
      unwrapAll xs = Except.error () := by
  intro xs
  induction xs with
  | nil => intro h; simp at h
  | cons l ls ih =>
    intro h
    rw [unwrapAll]
    cases hv : l.value with
    | none => rfl
    | some v =>
      obtain ⟨x, hx, hxn⟩ := h
      rcases List.mem_cons.mp hx with heq | hmem
      · subst heq
        rw [hv] at hxn
        exact absurd hxn (by simp)
      · rw [ih ⟨x, hmem, hxn⟩]

/-! Claim theorems. -/

/-- C5: for every AssignedInteger, `max_val()` equals the positional
base-`2^BIT_LEN_LIMB` composition of the per-limb bounds, i.e. the sum over
limb indices `i` of `max_val(limb_i) * 2^(i * BIT_LEN_LIMB)`. -/
theorem claim_C5_max_val_composition (a : AssignedInteger) :
    a.max_val = ∑ i in Finset.range a.limbs.length,
      (a.limbs.getD i ⟨none, ⟨0⟩, 0⟩).max_val * 2 ^ (i * a.rns.bitLen) := by
  unfold AssignedInteger.max_val AssignedInteger.max_vals
  rw [compose_eq_sum, List.length_map]
  refine Finset.sum_congr rfl fun i hi => ?_
  have hi' : i < a.limbs.length := Finset.mem_range.mp hi
  have hlen : i < (a.limbs.map AssignedLimb.max_val).length := by simpa using hi'
  rw [List.getD_eq_getElem _ 0 hlen, List.getElem_map,
    List.getD_eq_getElem _ _ hi']

/-- C6: the AssignedLimb bound combinators return the algebraic sums of the
input bounds: `add` returns the sum of the two bounds, `mul2` the doubled
bound, `mul3` the tripled bound, `add_big` the bound plus the constant; in
particular bounds 5 and 7 add to 12, and tripling bound 4 gives 12. -/
theorem claim_C6_limb_combinators (a b : AssignedLimb) (c : ℕ) :
    a.add b = a.max_val + b.max_val
  ∧ a.mul2 = a.max_val + a.max_val
  ∧ a.mul3 = 3 * a.max_val
  ∧ a.add_big c = a.max_val + c
  ∧ AssignedLimb.add ⟨none, ⟨0⟩, 5⟩ ⟨none, ⟨0⟩, 7⟩ = 12
  ∧ AssignedLimb.mul3 ⟨none, ⟨0⟩, 4⟩ = 12 := by
  refine ⟨rfl, rfl, ?_, rfl, rfl, rfl⟩
  unfold AssignedLimb.mul3
  ring

/-- C7: converting an AssignedLimb to the plain committed-value type preserves
the location token exactly and the witness value exactly (present iff present,
and recoverable), and the conversion ignores — hence drops — the max-value
bound: limbs differing only in their bound convert to the same AssignedValue. -/
theorem claim_C7_conversion_lossless (l : AssignedLimb) :
    l.toAssignedValue.cell = l.cell
  ∧ l.toAssignedValue.value = l.value.map Limb.fe
  ∧ l.toAssignedValue.value.map Limb.mk = l.value
  ∧ ∀ m, (AssignedLimb.mk l.value l.cell m).toAssignedValue
      = l.toAssignedValue := by
  refine ⟨rfl, rfl, ?_, fun m => rfl⟩
  cases hv : l.value with
  | none =>
    simp [AssignedLimb.toAssignedValue, AssignedValue.new, AssignedLimb.valueFe,
      hv]
  | some v =>
    simp [AssignedLimb.toAssignedValue, AssignedValue.new, AssignedLimb.valueFe,
      hv]

/-- C8: make_aux depends only on the shared RnsParams and the per-limb max
bounds: two AssignedIntegers with the same rns handle and equal bound lists
produce identical make_aux results, regardless of witness values. -/
theorem claim_C8_make_aux_bounds_only (a b : AssignedInteger)
    (hrns : a.rns = b.rns) (hbounds : a.max_vals = b.max_vals) :
    a.make_aux = b.make_aux := by
  unfold AssignedInteger.make_aux
  rw [hbounds, hrns]

/-- C8 witness: a fully-assigned and an all-absent AssignedInteger with the
same rns and bounds have identical make_aux results. -/
theorem claim_C8_witness :
    exInt.rns = exIntAbsent.rns
  ∧ exInt.max_vals = exIntAbsent.max_vals
  ∧ (∀ l ∈ exInt.limbs, l.value ≠ none)
  ∧ (∀ l ∈ exIntAbsent.limbs, l.value = none)
  ∧ exInt.make_aux = exIntAbsent.make_aux :=
  ⟨rfl, rfl, by decide, by decide,
    claim_C8_make_aux_bounds_only exInt exIntAbsent rfl rfl⟩

/-- C9: the fixed-arity `try_into` conversions are infallible: for a
well-formed AssignedInteger the collected bound list has exactly
`NUMBER_OF_LIMBS` entries, and the shifted auxiliary limb list built by
make_aux from the base auxiliary constants likewise, so both `try_into` calls
succeed. -/
theorem claim_C9_fixed_arity (a : AssignedInteger) (hw : a.wf)
    (hr : a.rns.wf) :
    tryIntoArray a.rns.n (a.limbs.map AssignedLimb.max_val)
      = some (a.limbs.map AssignedLimb.max_val)
  ∧ ∀ sh, tryIntoArray a.rns.n
      (a.rns.base_aux.map fun x => bigToFe a.rns.nativeMod (x <<< sh))
      = some (a.rns.base_aux.map fun x => bigToFe a.rns.nativeMod (x <<< sh)) := by
  have hw' : a.limbs.length = a.rns.n := hw
  have hr' : a.rns.base_aux.length = a.rns.n := hr.1
  constructor
  · unfold tryIntoArray
    rw [List.length_map, hw']
    simp
  · intro sh
    unfold tryIntoArray
    rw [List.length_map, hr']
    simp

/-- C9 witness: the conversions succeed on a concrete well-formed instance. -/
theorem claim_C9_witness :
    exInt.wf ∧ exInt.rns.wf
  ∧ (tryIntoArray exInt.rns.n (exInt.limbs.map AssignedLimb.max_val)
      = some (exInt.limbs.map AssignedLimb.max_val)
    ∧ ∀ sh, tryIntoArray exInt.rns.n
        (exInt.rns.base_aux.map fun x =>
          bigToFe exInt.rns.nativeMod (x <<< sh))
        = some (exInt.rns.base_aux.map fun x =>
            bigToFe exInt.rns.nativeMod (x <<< sh))) :=
  ⟨by decide, by decide, claim_C9_fixed_arity exInt (by decide) (by decide)⟩

/-- C10: the bound combinator `add` is commutative. -/
theorem claim_C10_add_comm (a b : AssignedLimb) : a.add b = b.add a :=
  Nat.add_comm a.max_val b.max_val

/-- C2: make_aux computes, per limb position, the number of one-bit left
shifts needed on that position's base auxiliary constant until it is no longer
strictly exceeded by the limb's bound (`leastShiftSpec`, shown least), applies
the single largest such count uniformly to every base auxiliary limb, and
returns a fresh Integer of those uniformly shifted limbs; when no bound
exceeds its unshifted base constant the applied shift is zero and the output
limbs equal the base auxiliary tuple. -/
theorem claim_C2_make_aux_algorithm (a : AssignedInteger) (hr : a.rns.wf) :
    a.make_aux = some (Integer.from_limbs
        (a.rns.base_aux.map fun x => bigToFe a.rns.nativeMod
          (x <<< maxShiftSpec (a.max_vals.zip a.rns.base_aux)))
        a.rns)
  ∧ (∀ pr ∈ a.max_vals.zip a.rns.base_aux,
        pr.1 ≤ pr.2 * 2 ^ leastShiftSpec pr.1 pr.2
      ∧ ∀ j, pr.1 ≤ pr.2 * 2 ^ j → leastShiftSpec pr.1 pr.2 ≤ j)
  ∧ ((∀ pr ∈ a.max_vals.zip a.rns.base_aux, pr.1 ≤ pr.2) →
        maxShiftSpec (a.max_vals.zip a.rns.base_aux) = 0
      ∧ a.make_aux = some (Integer.from_limbs
          (a.rns.base_aux.map fun x => bigToFe a.rns.nativeMod x) a.rns)) := by
  have hpos : ∀ pr ∈ a.max_vals.zip a.rns.base_aux, 0 < pr.2 := by
    intro pr hpr
    exact hr.2 pr.2 (List.of_mem_zip hpr).2
  have hshift := makeAuxShift_eq _ hpos
  have hmain : a.make_aux = some (Integer.from_limbs
      (a.rns.base_aux.map fun x => bigToFe a.rns.nativeMod
        (x <<< maxShiftSpec (a.max_vals.zip a.rns.base_aux)))
      a.rns) := by
    unfold AssignedInteger.make_aux
    rw [hshift]
    rfl
  refine ⟨hmain, ?_, ?_⟩
  · intro pr hpr
    have hp2 : 0 < pr.2 := hpos pr hpr
    exact ⟨leastShiftSpec_le (pr.1 - pr.2) pr.1 pr.2 le_rfl hp2,
      fun j hj => leastShiftSpec_min (pr.1 - pr.2) pr.1 pr.2 le_rfl j hj⟩
  · intro hall
    have hS0 : maxShiftSpec (a.max_vals.zip a.rns.base_aux) = 0 := by
      have hub := foldl_max_le (fun pr : ℕ × ℕ => leastShiftSpec pr.1 pr.2)
        (a.max_vals.zip a.rns.base_aux) 0 0 le_rfl (by
          intro pr hpr
          have hL0 : leastShiftSpec pr.1 pr.2 = 0 := by
            rw [leastShiftSpec.eq_def]
            simp [hall pr hpr]
          simp [hL0])
      have hub' : List.foldl (fun m pr => max m (leastShiftSpec pr.1 pr.2)) 0
          (a.max_vals.zip a.rns.base_aux) ≤ 0 := by
        simpa using hub
      unfold maxShiftSpec
      omega
    refine ⟨hS0, ?_⟩
    rw [hmain, hS0]
    simp [Nat.shiftLeft_zero]

/-- C2 witness: the make_aux characterization instantiated at the concrete
well-formed integer `exInt`. -/
theorem claim_C2_witness :
    exInt.rns.wf
  ∧ (exInt.make_aux = some (Integer.from_limbs
        (exInt.rns.base_aux.map fun x => bigToFe exInt.rns.nativeMod
          (x <<< maxShiftSpec (exInt.max_vals.zip exInt.rns.base_aux)))
        exInt.rns)
    ∧ (∀ pr ∈ exInt.max_vals.zip exInt.rns.base_aux,
          pr.1 ≤ pr.2 * 2 ^ leastShiftSpec pr.1 pr.2
        ∧ ∀ j, pr.1 ≤ pr.2 * 2 ^ j → leastShiftSpec pr.1 pr.2 ≤ j)
    ∧ ((∀ pr ∈ exInt.max_vals.zip exInt.rns.base_aux, pr.1 ≤ pr.2) →
          maxShiftSpec (exInt.max_vals.zip exInt.rns.base_aux) = 0
        ∧ exInt.make_aux = some (Integer.from_limbs
            (exInt.rns.base_aux.map fun x => bigToFe exInt.rns.nativeMod x)
            exInt.rns))) :=
  ⟨by decide, claim_C2_make_aux_algorithm exInt (by decide)⟩

/-- C3: the shift applied by make_aux is non-negative, equals the maximum over
all limb positions of that position's required shift, and for every position
the base auxiliary constant shifted by the applied amount is at least that
position's bound. -/
theorem claim_C3_shift_dominates (a : AssignedInteger) (hr : a.rns.wf) :
    0 ≤ maxShiftSpec (a.max_vals.zip a.rns.base_aux)
  ∧ makeAuxShift (a.max_vals.zip a.rns.base_aux)
      = some (maxShiftSpec (a.max_vals.zip a.rns.base_aux))
  ∧ ∀ pr ∈ a.max_vals.zip a.rns.base_aux,
      leastShiftSpec pr.1 pr.2 ≤ maxShiftSpec (a.max_vals.zip a.rns.base_aux)
    ∧ pr.1 ≤ pr.2 <<< maxShiftSpec (a.max_vals.zip a.rns.base_aux) := by
  have hpos : ∀ pr ∈ a.max_vals.zip a.rns.base_aux, 0 < pr.2 := by
    intro pr hpr
    exact hr.2 pr.2 (List.of_mem_zip hpr).2
  refine ⟨Nat.zero_le _, makeAuxShift_eq _ hpos, ?_⟩
  intro pr hpr
  have hp2 : 0 < pr.2 := hpos pr hpr
  have hmem := foldl_max_mem (fun q : ℕ × ℕ => leastShiftSpec q.1 q.2)
    (a.max_vals.zip a.rns.base_aux) 0 pr hpr
  refine ⟨hmem, ?_⟩
  have h1 := leastShiftSpec_le (pr.1 - pr.2) pr.1 pr.2 le_rfl hp2
  have hpow : 2 ^ leastShiftSpec pr.1 pr.2
      ≤ 2 ^ maxShiftSpec (a.max_vals.zip a.rns.base_aux) :=
    Nat.pow_le_pow_right (by norm_num) hmem
  calc pr.1 ≤ pr.2 * 2 ^ leastShiftSpec pr.1 pr.2 := h1
    _ ≤ pr.2 * 2 ^ maxShiftSpec (a.max_vals.zip a.rns.base_aux) :=
      Nat.mul_le_mul le_rfl hpow
    _ = pr.2 <<< maxShiftSpec (a.max_vals.zip a.rns.base_aux) :=
      (Nat.shiftLeft_eq _ _).symm

/-- C3 witness: the shift bounds instantiated at the concrete well-formed
integer `exInt`. -/
theorem claim_C3_witness :
    exInt.rns.wf
  ∧ (0 ≤ maxShiftSpec (exInt.max_vals.zip exInt.rns.base_aux)
    ∧ makeAuxShift (exInt.max_vals.zip exInt.rns.base_aux)
        = some (maxShiftSpec (exInt.max_vals.zip exInt.rns.base_aux))
    ∧ ∀ pr ∈ exInt.max_vals.zip exInt.rns.base_aux,
        leastShiftSpec pr.1 pr.2
          ≤ maxShiftSpec (exInt.max_vals.zip exInt.rns.base_aux)
      ∧ pr.1 ≤ pr.2 <<< maxShiftSpec (exInt.max_vals.zip exInt.rns.base_aux)) :=
  ⟨by decide, claim_C3_shift_dominates exInt (by decide)⟩

/-- C4: in the 4-limb, 68-bit instantiation with base auxiliary tuple
`[2^67, 2^67, 2^67, 2^67]`, an AssignedInteger with limb bounds
`[2^67, 2^69, 2^67, 2^67]` yields in make_aux a shift of exactly 2 and output
auxiliary limbs `[2^69, 2^69, 2^69, 2^69]`, the shift applied uniformly. -/
theorem claim_C4_concrete_scenario :
    int4.make_aux = some ⟨[⟨2 ^ 69⟩, ⟨2 ^ 69⟩, ⟨2 ^ 69⟩, ⟨2 ^ 69⟩], rns4⟩
  ∧ makeAuxShift (int4.max_vals.zip rns4.base_aux) = some 2 := by
  have h00 : leastShiftSpec (2 ^ 67) (2 ^ 67) = 0 := by
    rw [leastShiftSpec.eq_def, if_pos (Or.inl le_rfl)]
  have h2 : leastShiftSpec (2 ^ 69) (2 ^ 67) = 2 := by
    rw [leastShiftSpec.eq_def,
      if_neg (by norm_num : ¬ ((2:ℕ) ^ 69 ≤ 2 ^ 67 ∨ (2:ℕ) ^ 67 = 0)),
      leastShiftSpec.eq_def,
      if_neg (by norm_num :
        ¬ ((2:ℕ) ^ 69 ≤ 2 ^ 67 * 2 ∨ (2:ℕ) ^ 67 * 2 = 0)),
      leastShiftSpec.eq_def,
      if_pos (Or.inl (by norm_num : (2:ℕ) ^ 69 ≤ 2 ^ 67 * 2 * 2))]
  have hposl : ∀ pr ∈ [((2:ℕ) ^ 67, (2:ℕ) ^ 67), ((2:ℕ) ^ 69, (2:ℕ) ^ 67),
      ((2:ℕ) ^ 67, (2:ℕ) ^ 67), ((2:ℕ) ^ 67, (2:ℕ) ^ 67)], 0 < pr.2 := by
    intro pr hpr
    simp only [List.mem_cons, List.not_mem_nil, or_false] at hpr
    rcases hpr with h | h | h | h <;> subst h <;> positivity
  have hmss : maxShiftSpec [((2:ℕ) ^ 67, (2:ℕ) ^ 67), ((2:ℕ) ^ 69, (2:ℕ) ^ 67),
      ((2:ℕ) ^ 67, (2:ℕ) ^ 67), ((2:ℕ) ^ 67, (2:ℕ) ^ 67)] = 2 := by
    unfold maxShiftSpec
    rw [List.foldl_cons, List.foldl_cons, List.foldl_cons, List.foldl_cons,
      List.foldl_nil]
    simp only [h00, h2]
    decide
  have hpairs : int4.max_vals.zip int4.rns.base_aux
      = [((2:ℕ) ^ 67, (2:ℕ) ^ 67), (2 ^ 69, 2 ^ 67), (2 ^ 67, 2 ^ 67),
         (2 ^ 67, 2 ^ 67)] := rfl
  have hpairs2 : int4.max_vals.zip rns4.base_aux
      = [((2:ℕ) ^ 67, (2:ℕ) ^ 67), (2 ^ 69, 2 ^ 67), (2 ^ 67, 2 ^ 67),
         (2 ^ 67, 2 ^ 67)] := rfl
  have hsh : makeAuxShift (int4.max_vals.zip int4.rns.base_aux) = some 2 := by
    rw [hpairs, makeAuxShift_eq _ hposl, hmss]
  have hsh2 : makeAuxShift (int4.max_vals.zip rns4.base_aux) = some 2 := by
    rw [hpairs2, makeAuxShift_eq _ hposl, hmss]
  refine ⟨?_, hsh2⟩
  unfold AssignedInteger.make_aux
  rw [hsh]
  simp only [Option.map_some']
  unfold Integer.from_limbs
  congr 1

/-- C1 counterexample: an AssignedInteger whose first limb is assigned but
whose second limb is unassigned has an absent limb, yet `integer()` panics
(unwrap on an absent witness) instead of returning an absent result. -/
theorem claim_C1_counterexample :
    (∃ l ∈ exIntMixed.limbs, l.value = none)
  ∧ exIntMixed.integer = Except.error ()
  ∧ exIntMixed.integer ≠ Except.ok none := by
  refine ⟨⟨⟨none, ⟨1⟩, 7⟩, by decide, rfl⟩, rfl, ?_⟩
  intro h
  rw [show exIntMixed.integer = Except.error () from rfl] at h
  exact Except.noConfusion h

/-- C1 (amended): `integer()` returns absent exactly when the first limb is
unassigned; when the first limb is assigned it returns the full Integer if
every limb is assigned, and panics if some other limb is unassigned. -/
theorem claim_C1_integer_amended (a : AssignedInteger) (l0 : AssignedLimb)
    (ls : List AssignedLimb) (hl : a.limbs = l0 :: ls) :
    (l0.value = none → a.integer = Except.ok none)
  ∧ ((∃ l ∈ a.limbs, l.value = none) → l0.value ≠ none →
      a.integer = Except.error ())
  ∧ ((∀ l ∈ a.limbs, l.value ≠ none) →
      ∃ vs, a.integer = Except.ok (some (Integer.new vs a.rns))
        ∧ a.limbs.map AssignedLimb.value = vs.map some) := by
  refine ⟨?_, ?_, ?_⟩
  · intro h0
    unfold AssignedInteger.integer
    rw [hl]
    simp [h0]
  · intro hex h0
    obtain ⟨v, hv⟩ := Option.ne_none_iff_exists'.mp h0
    have herr : unwrapAll a.limbs = Except.error () := unwrapAll_error a.limbs hex
    unfold AssignedInteger.integer
    rw [hl] at herr ⊢
    simp [hv, herr]
  · intro hall
    obtain ⟨vs, hvs, hmap⟩ := unwrapAll_ok a.limbs hall
    have h0 : l0.value ≠ none := hall l0 (by rw [hl]; exact List.mem_cons_self l0 ls)
    obtain ⟨v, hv⟩ := Option.ne_none_iff_exists'.mp h0
    refine ⟨vs, ?_, hmap⟩
    unfold AssignedInteger.integer
    rw [hl] at hvs ⊢
    simp [hv, hvs]

/-- C1 witness: the amended characterization instantiated at the concrete
fully-assigned integer `exInt`. -/
theorem claim_C1_witness :
    exInt.limbs = (⟨some ⟨1⟩, ⟨0⟩, 5⟩ : AssignedLimb) :: [⟨some ⟨2⟩, ⟨1⟩, 7⟩]
  ∧ (((⟨some ⟨1⟩, ⟨0⟩, 5⟩ : AssignedLimb).value = none →
        exInt.integer = Except.ok none)
    ∧ ((∃ l ∈ exInt.limbs, l.value = none) →
        (⟨some ⟨1⟩, ⟨0⟩, 5⟩ : AssignedLimb).value ≠ none →
        exInt.integer = Except.error ())
    ∧ ((∀ l ∈ exInt.limbs, l.value ≠ none) →
        ∃ vs, exInt.integer = Except.ok (some (Integer.new vs exInt.rns))
          ∧ exInt.limbs.map AssignedLimb.value = vs.map some)) :=
  ⟨rfl, claim_C1_integer_amended exInt ⟨some ⟨1⟩, ⟨0⟩, 5⟩ [⟨some ⟨2⟩, ⟨1⟩, 7⟩] rfl⟩

end IntegerLib
